import Mathlib

set_option autoImplicit false
set_option maxHeartbeats 1000000

/-!
Shallow embedding of the graph-HMM / pathracer search subsystem:
the cursor decorators of `src/projects/pathracer/cursor.hpp`, the path
materializer `to_path`, the component joining loop, the per-component
path search driver of `src/projects/graph-hmm/main.cpp`, and the
sequence merging used for rescoring output.
-/

/-- The capability set every graph cursor exposes (`cursor.hpp`):
`next`/`prev` return the finite list of successor/predecessor cursors,
`letter` the symbol at the position; all pure functions of (cursor, context). -/
structure GraphCursorOps (α : Type) (Ctx : Type) where
  next : α → Ctx → List α
  prev : α → Ctx → List α
  letter : α → Ctx → Char

/-- `ReversalGraphCursor<GraphCursor>` (cursor.hpp, lines 7-32): a wrapper
holding exactly the base cursor state (C++ inheritance adds no fields). -/
structure ReversalGraphCursor (α : Type) where
  base : α
deriving DecidableEq

/-- Operations of `ReversalGraphCursor`: `next` delegates to the base `prev`
and rewraps the resulting cursors element-wise, `prev` delegates to base
`next`; `letter` is inherited unchanged. -/
def ReversalOps {α Ctx : Type} (ops : GraphCursorOps α Ctx) :
    GraphCursorOps (ReversalGraphCursor α) Ctx where
  next c ctx := (ops.prev c.base ctx).map ReversalGraphCursor.mk
  prev c ctx := (ops.next c.base ctx).map ReversalGraphCursor.mk
  letter c ctx := ops.letter c.base ctx

/-- `RestrictedGraphCursor<GraphCursor>` (cursor.hpp, lines 34-68): the base
cursor state plus a reference to the search space (`pspace_`). -/
structure RestrictedGraphCursor (α : Type) where
  base : α
  pspace : Finset α
deriving DecidableEq

/-- `RestrictedGraphCursor::filter_` (cursor.hpp, lines 58-67): keep the base
cursors that are members of the space, each rewrapped with the same space. -/
def restrictedFilter {α : Type} [DecidableEq α] (space : Finset α) (v : List α) :
    List (RestrictedGraphCursor α) :=
  (v.filter (fun c => decide (c ∈ space))).map (fun c => ⟨c, space⟩)

/-- Operations of `RestrictedGraphCursor`: delegate to the base, then filter
the result to members of the attached search space. -/
def RestrictedOps {α Ctx : Type} [DecidableEq α] (ops : GraphCursorOps α Ctx) :
    GraphCursorOps (RestrictedGraphCursor α) Ctx where
  next c ctx := restrictedFilter c.pspace (ops.next c.base ctx)
  prev c ctx := restrictedFilter c.pspace (ops.prev c.base ctx)
  letter c ctx := ops.letter c.base ctx

/-- `OptimizedRestrictedGraphCursorContext` (cursor.hpp, lines 80-84): the
context bundles the space reference and the base context. -/
structure OptimizedRestrictedGraphCursorContext (α Ctx : Type) where
  space : Finset α
  context : Ctx

/-- `OptimizedRestrictedGraphCursor<GraphCursor>` (cursor.hpp, lines 86-120):
only the base cursor state; the space lives in the context. -/
structure OptimizedRestrictedGraphCursor (α : Type) where
  base : α
deriving DecidableEq

/-- `OptimizedRestrictedGraphCursor::filter_` (cursor.hpp, lines 110-119). -/
def optimizedFilter {α : Type} [DecidableEq α] (v : List α) (space : Finset α) :
    List (OptimizedRestrictedGraphCursor α) :=
  (v.filter (fun c => decide (c ∈ space))).map OptimizedRestrictedGraphCursor.mk

/-- Operations of `OptimizedRestrictedGraphCursor`: unpack the context,
delegate to the base with the base context, filter by the space. -/
def OptimizedRestrictedOps {α Ctx : Type} [DecidableEq α] (ops : GraphCursorOps α Ctx) :
    GraphCursorOps (OptimizedRestrictedGraphCursor α)
      (OptimizedRestrictedGraphCursorContext α Ctx) where
  next c ctx := optimizedFilter (ops.next c.base ctx.context) ctx.space
  prev c ctx := optimizedFilter (ops.prev c.base ctx.context) ctx.space
  letter c ctx := ops.letter c.base ctx.context

/-- The unguarded leading-skip loop of `to_path` (main.cpp, lines 153-155):
`while (it->is_empty()) ++it;`. Reaching the end of the sequence dereferences
the past-the-end iterator, modelled as `none`. -/
def skip_empty {α : Type} (isEmpty : α → Bool) : List α → Option (List α)
  | [] => none
  | c :: rest => if isEmpty c then skip_empty isEmpty rest else some (c :: rest)

/-- The main loop of `to_path` (main.cpp, lines 157-163), with the path
accumulated in reverse (head = last appended edge): skip empty cursors,
append the cursor's edge when the path is empty or the edge differs from the
last appended one. -/
def to_path_go {α E : Type} [DecidableEq E] (edgeOf : α → E) (isEmpty : α → Bool) :
    List α → List E → List E
  | [], acc => acc
  | c :: rest, acc =>
    if isEmpty c then to_path_go edgeOf isEmpty rest acc
    else
      match acc with
      | [] => to_path_go edgeOf isEmpty rest [edgeOf c]
      | last :: acctail =>
        if edgeOf c = last then to_path_go edgeOf isEmpty rest (last :: acctail)
        else to_path_go edgeOf isEmpty rest (edgeOf c :: last :: acctail)

/-- `to_path` (main.cpp, lines 149-166): skip the leading empty cursors with
the unguarded loop, then materialize the deduplicated edge path; `none` when
the leading-skip loop runs off the end of the sequence. -/
def to_path {α E : Type} [DecidableEq E] (edgeOf : α → E) (isEmpty : α → Bool)
    (cpath : List α) : Option (List E) :=
  (skip_empty isEmpty cpath).map (fun rest => (to_path_go edgeOf isEmpty rest []).reverse)

/-- `PathInfo` (main.cpp, lines 361-369): leader edge, rank among the top-K
results for the component, residue string, deduplicated edge path. -/
structure PathInfo where
  leader : Nat
  priority : Nat
  seq : String
  path : List Nat
deriving DecidableEq

/-- The per-component body of the path search driver (main.cpp, lines
389-428). `esize` is the raw `component.e_size()` (reverse-complement
doubling included; the code halves it). The external aligner is opaque: the
`aligner` argument returns the ordered top-K `(materialized string, edge
path)` pairs that `run_search` extracts from `result.top_k`; invoking the
search means evaluating `aligner ()` and enumerating its output with dense
priorities starting at 0. -/
def processComponent (min_size max_size : Nat) (e : Nat) (esize : Nat)
    (aligner : Unit → List (String × List Nat)) : List PathInfo :=
  if esize / 2 < min_size then
    [⟨e, 0, "", [e]⟩]
  else if max_size < esize / 2 then
    []
  else
    (aligner ()).enum.map (fun p => ⟨e, p.1, p.2.1, p.2.2⟩)

/-- The inner loop of the component joining pass (main.cpp, lines 350-357):
walk the remaining entries; an entry `(b, sb)` whose edge-start or edge-end
vertex lies in the accumulated set of the current outer entry is absorbed
(set union) and removed, otherwise it is kept; the accumulated set grows as
the walk proceeds. Returns the outer entry's final set and the surviving
remainder. -/
def joinInner (estart eend : Nat → Nat) (acc : Finset Nat) :
    List (Nat × Finset Nat) → Finset Nat × List (Nat × Finset Nat)
  | [] => (acc, [])
  | (b, sb) :: rest =>
    if estart b ∈ acc ∨ eend b ∈ acc then
      joinInner estart eend (acc ∪ sb) rest
    else
      let r := joinInner estart eend acc rest
      (r.1, (b, sb) :: r.2)

/-- The outer loop of the component joining pass (main.cpp, lines 349-358),
fuelled so that it is structurally recursive: each outer entry runs one inner
pass over the entries after it and keeps its (possibly grown) set. -/
def joinComponentsGo (estart eend : Nat → Nat) :
    Nat → List (Nat × Finset Nat) → List (Nat × Finset Nat)
  | 0, l => l
  | _ + 1, [] => []
  | fuel + 1, (e, s) :: rest =>
    let r := joinInner estart eend s rest
    (e, r.1) :: joinComponentsGo estart eend fuel r.2

/-- The component joining pass ("Joining components", main.cpp lines
348-358): one forward pass of the nested loops over the neighbourhood
mapping, modelled as an association list in iteration order. The fuel
`l.length` always suffices since the inner pass never lengthens the
remainder. -/
def joinComponents (estart eend : Nat → Nat) (l : List (Nat × Finset Nat)) :
    List (Nat × Finset Nat) :=
  joinComponentsGo estart eend l.length l

/-- The graph substrate operations the neighbourhood extraction consumes
(external collaborators): edge endpoints and the bounded forward/backward
Dijkstra traversals (`CreateEdgeBoundedDijkstra` /
`CreateBackwardEdgeBoundedDijkstra`), each mapping a residue bound and a
start vertex to the list of reached vertices. -/
structure GraphSubstrate where
  estart : Nat → Nat
  eend : Nat → Nat
  freach : Nat → Nat → List Nat
  breach : Nat → Nat → List Nat

/-- The neighbourhood extraction for one matched edge (main.cpp, lines
312-345): scale both overhangs by `mult` (6 for amino-acid models, 2 for
nucleotide models); run the forward traversal from the edge's end vertex
only when the scaled forward overhang is positive, the backward traversal
from the start vertex only when the scaled backward overhang is positive;
the neighbourhood is both reached sets plus the edge's two endpoints. -/
def extractNeighbourhood (g : GraphSubstrate) (hmm_in_aas : Bool) (e : Nat)
    (overhangs : Nat × Nat) : Finset Nat :=
  let mult : Nat := if hmm_in_aas then 6 else 2
  let ov : Nat × Nat := (overhangs.1 * mult, overhangs.2 * mult)
  let fvertices : List Nat := if 0 < ov.2 then g.freach ov.2 (g.eend e) else []
  let bvertices : List Nat := if 0 < ov.1 then g.breach ov.1 (g.estart e) else []
  ((fvertices.toFinset ∪ bvertices.toFinset) ∪ {g.eend e}) ∪ {g.estart e}

/-- The sequence-level view of the graph substrate used by the rescoring
output: k-mer order, per-edge nucleotide sequence, edge endpoints. -/
structure SeqGraph where
  k : Nat
  nucls : Nat → List Char
  estart : Nat → Nat
  eend : Nat → Nat

/-- Modelled from the spec: `MergeOverlappingSequences` (defined in
`sequence_tools.hpp`, which is not part of the excerpt) concatenates the
sequences so that each consecutive pair overlaps by exactly `k` residues:
the first sequence is kept whole and each later one contributes its part
after its first `k` characters. -/
def MergeOverlappingSequences (ss : List (List Char)) (k : Nat) : List Char :=
  match ss with
  | [] => []
  | s :: rest => s ++ (rest.map (fun t => t.drop k)).flatten

/-- `DeBruijnDataMaster::length` (debruijn_data.hpp, lines 234-236): an
edge's length is its nucleotide sequence length minus `k`. -/
def edge_length (g : SeqGraph) (e : Nat) : Nat := (g.nucls e).length - g.k

/-- `MergeSequences` (main.cpp, lines 249-259): collect the edge sequences
along the path, `VERIFY`-ing that each consecutive pair of edges is adjacent
(end vertex of one = start vertex of the next), then merge them with k-mer
overlaps. `none` models the `VERIFY` abort on a non-adjacent pair and the
out-of-bounds access on an empty path. -/
def MergeSequences (g : SeqGraph) (continuous_path : List Nat) : Option (List Char) :=
  match continuous_path with
  | [] => none
  | _ :: _ =>
    if List.Chain' (fun a b => g.eend a = g.estart b) continuous_path then
      some (MergeOverlappingSequences (continuous_path.map g.nucls) g.k)
    else
      none

/-! ### Helper lemmas on the cursor decorators and the materializer -/

theorem mem_restrictedFilter {α : Type} [DecidableEq α] {S : Finset α} {v : List α}
    {r : RestrictedGraphCursor α} (h : r ∈ restrictedFilter S v) :
    r.base ∈ S ∧ r.base ∈ v ∧ r.pspace = S := by
  simp only [restrictedFilter, List.mem_map, List.mem_filter, decide_eq_true_eq] at h
  obtain ⟨c, ⟨hv, hS⟩, rfl⟩ := h
  exact ⟨hS, hv, rfl⟩

theorem map_base_restrictedFilter {α : Type} [DecidableEq α] (S : Finset α) (v : List α) :
    (restrictedFilter S v).map RestrictedGraphCursor.base
      = v.filter (fun a => decide (a ∈ S)) := by
  simp only [restrictedFilter, List.map_map]
  rw [show (RestrictedGraphCursor.base ∘ fun c => (⟨c, S⟩ : RestrictedGraphCursor α))
      = id from rfl, List.map_id]

theorem map_base_optimizedFilter {α : Type} [DecidableEq α] (S : Finset α) (v : List α) :
    (optimizedFilter v S).map OptimizedRestrictedGraphCursor.base
      = v.filter (fun a => decide (a ∈ S)) := by
  simp only [optimizedFilter, List.map_map]
  rw [show (OptimizedRestrictedGraphCursor.base ∘ OptimizedRestrictedGraphCursor.mk :
      α → α) = id from rfl, List.map_id]

theorem skip_empty_map {α β : Type} (g : β → α) (isEmpty : α → Bool) (l : List β) :
    skip_empty isEmpty (l.map g)
      = (skip_empty (fun b => isEmpty (g b)) l).map (List.map g) := by
  induction l with
  | nil => rfl
  | cons c rest ih =>
    simp only [List.map_cons, skip_empty]
    by_cases h : isEmpty (g c)
    · simp [h, ih]
    · simp [h]

theorem to_path_go_map {α β E : Type} [DecidableEq E] (g : β → α) (edgeOf : α → E)
    (isEmpty : α → Bool) (l : List β) :
    ∀ acc : List E,
      to_path_go (fun b => edgeOf (g b)) (fun b => isEmpty (g b)) l acc
        = to_path_go edgeOf isEmpty (l.map g) acc := by
  induction l with
  | nil => intro acc; rfl
  | cons c rest ih =>
    intro acc
    simp only [List.map_cons, to_path_go]
    by_cases h : isEmpty (g c)
    · simp [h, ih]
    · simp only [h, if_false, Bool.false_eq_true]
      match acc with
      | [] => exact ih [edgeOf (g c)]
      | last :: acctail =>
        by_cases he : edgeOf (g c) = last
        · simp [he, ih]
        · simp [he, ih]

theorem to_path_map {α β E : Type} [DecidableEq E] (g : β → α) (edgeOf : α → E)
    (isEmpty : α → Bool) (l : List β) :
    to_path (fun b => edgeOf (g b)) (fun b => isEmpty (g b)) l
      = to_path edgeOf isEmpty (l.map g) := by
  unfold to_path
  rw [skip_empty_map]
  cases h : skip_empty (fun b => isEmpty (g b)) l with
  | none => rfl
  | some rest => simp [to_path_go_map]

/-! ### C3: reversal duality -/

/-- C3: for every cursor `c` and context `x`, `Reversal(c).next(x)` is the
element-wise Reversal-wrapping of `c.prev(x)` (same cursors, same order), and
symmetrically `Reversal(c).prev(x)` is the element-wise wrapping of
`c.next(x)`; unwrapping recovers exactly the base `prev`/`next` lists. -/
theorem reversal_next_prev_swap {α Ctx : Type} (ops : GraphCursorOps α Ctx)
    (c : α) (x : Ctx) :
    (ReversalOps ops).next ⟨c⟩ x = (ops.prev c x).map ReversalGraphCursor.mk ∧
    (ReversalOps ops).prev ⟨c⟩ x = (ops.next c x).map ReversalGraphCursor.mk ∧
    ((ReversalOps ops).next ⟨c⟩ x).map ReversalGraphCursor.base = ops.prev c x ∧
    ((ReversalOps ops).prev ⟨c⟩ x).map ReversalGraphCursor.base = ops.next c x := by
  refine ⟨rfl, rfl, ?_, ?_⟩ <;>
    · show ((_ : List α).map ReversalGraphCursor.mk).map ReversalGraphCursor.base = _
      rw [List.map_map,
        show (ReversalGraphCursor.base ∘ ReversalGraphCursor.mk : α → α) = id from rfl,
        List.map_id]

/-! ### C4: restriction closure -/

/-- C4: every cursor returned by `Restriction(c,S).next(x)` (and `prev`) is a
member of `S` and arose from a base successor; base successors outside `S`
are silently dropped: the returned bases are exactly the base results
filtered to `S`. -/
theorem restriction_space_closure {α Ctx : Type} [DecidableEq α]
    (ops : GraphCursorOps α Ctx) (c : α) (S : Finset α) (x : Ctx) :
    (∀ r ∈ (RestrictedOps ops).next ⟨c, S⟩ x,
        r.base ∈ S ∧ r.base ∈ ops.next c x ∧ r.pspace = S) ∧
    (∀ r ∈ (RestrictedOps ops).prev ⟨c, S⟩ x,
        r.base ∈ S ∧ r.base ∈ ops.prev c x ∧ r.pspace = S) ∧
    ((RestrictedOps ops).next ⟨c, S⟩ x).map RestrictedGraphCursor.base
      = (ops.next c x).filter (fun a => decide (a ∈ S)) ∧
    ((RestrictedOps ops).prev ⟨c, S⟩ x).map RestrictedGraphCursor.base
      = (ops.prev c x).filter (fun a => decide (a ∈ S)) := by
  refine ⟨fun r h => mem_restrictedFilter h, fun r h => mem_restrictedFilter h, ?_, ?_⟩ <;>
    apply map_base_restrictedFilter

/-- A tiny concrete cursor type over `Nat` positions used to witness the
decorator theorems. -/
def natCursorOps : GraphCursorOps Nat Unit where
  next c _ := [c + 1, c + 5]
  prev c _ := [c - 1]
  letter _ _ := 'a'

theorem restriction_space_closure_witness :
    (⟨1, ({1, 2} : Finset Nat)⟩ : RestrictedGraphCursor Nat)
        ∈ (RestrictedOps natCursorOps).next ⟨0, ({1, 2} : Finset Nat)⟩ () ∧
    (1 ∈ ({1, 2} : Finset Nat) ∧ 1 ∈ natCursorOps.next 0 () ∧
      (⟨1, ({1, 2} : Finset Nat)⟩ : RestrictedGraphCursor Nat).pspace = {1, 2}) := by
  have hmem : (⟨1, ({1, 2} : Finset Nat)⟩ : RestrictedGraphCursor Nat)
      ∈ (RestrictedOps natCursorOps).next ⟨0, ({1, 2} : Finset Nat)⟩ () := by decide
  exact ⟨hmem, (restriction_space_closure natCursorOps 0 {1, 2} ()).1 _ hmem⟩

/-! ### C2: Restriction vs Optimized Restriction -/

/-- C2: the Restriction decorator and the Optimized Restriction decorator are
observationally equivalent: `next`/`prev` return the same underlying base
cursors in the same order, and for any two corresponding cursor sequences
the materialized (deduplicated) edge paths coincide. -/
theorem restricted_optimized_equiv {α Ctx E : Type} [DecidableEq α] [DecidableEq E]
    (ops : GraphCursorOps α Ctx) (c : α) (S : Finset α) (x : Ctx)
    (edgeOf : α → E) (isEmpty : α → Bool) :
    ((RestrictedOps ops).next ⟨c, S⟩ x).map RestrictedGraphCursor.base
      = ((OptimizedRestrictedOps ops).next ⟨c⟩ ⟨S, x⟩).map
          OptimizedRestrictedGraphCursor.base ∧
    ((RestrictedOps ops).prev ⟨c, S⟩ x).map RestrictedGraphCursor.base
      = ((OptimizedRestrictedOps ops).prev ⟨c⟩ ⟨S, x⟩).map
          OptimizedRestrictedGraphCursor.base ∧
    ∀ (rs : List (RestrictedGraphCursor α)) (os : List (OptimizedRestrictedGraphCursor α)),
      rs.map RestrictedGraphCursor.base = os.map OptimizedRestrictedGraphCursor.base →
      to_path (fun r => edgeOf r.base) (fun r => isEmpty r.base) rs
        = to_path (fun o => edgeOf o.base) (fun o => isEmpty o.base) os := by
  refine ⟨?_, ?_, ?_⟩
  · rw [show (RestrictedOps ops).next ⟨c, S⟩ x
        = restrictedFilter S (ops.next c x) from rfl,
      show (OptimizedRestrictedOps ops).next ⟨c⟩ ⟨S, x⟩
        = optimizedFilter (ops.next c x) S from rfl,
      map_base_restrictedFilter, map_base_optimizedFilter]
  · rw [show (RestrictedOps ops).prev ⟨c, S⟩ x
        = restrictedFilter S (ops.prev c x) from rfl,
      show (OptimizedRestrictedOps ops).prev ⟨c⟩ ⟨S, x⟩
        = optimizedFilter (ops.prev c x) S from rfl,
      map_base_restrictedFilter, map_base_optimizedFilter]
  · intro rs os h
    rw [to_path_map RestrictedGraphCursor.base edgeOf isEmpty rs,
      to_path_map OptimizedRestrictedGraphCursor.base edgeOf isEmpty os, h]

theorem restricted_optimized_equiv_witness :
    to_path (fun r : RestrictedGraphCursor Nat => r.base)
        (fun r => decide (r.base = 0)) [⟨2, ({2} : Finset Nat)⟩, ⟨3, ({2} : Finset Nat)⟩]
      = to_path (fun o : OptimizedRestrictedGraphCursor Nat => o.base)
        (fun o => decide (o.base = 0)) [⟨2⟩, ⟨3⟩] :=
  (restricted_optimized_equiv natCursorOps 0 {2} () (fun a => a)
      (fun a => decide (a = 0))).2.2
    [⟨2, {2}⟩, ⟨3, {2}⟩] [⟨2⟩, ⟨3⟩] (by decide)

/-! ### C7: materializer collapse -/

theorem to_path_go_filter {α E : Type} [DecidableEq E] (edgeOf : α → E)
    (isEmpty : α → Bool) (l : List α) :
    ∀ acc : List E,
      to_path_go edgeOf isEmpty l acc
        = to_path_go edgeOf isEmpty (l.filter (fun c => !(isEmpty c))) acc := by
  induction l with
  | nil => intro acc; rfl
  | cons c rest ih =>
    intro acc
    by_cases h : isEmpty c
    · simp [to_path_go, h, ih]
    · simp only [List.filter_cons, h, Bool.not_false, if_true, to_path_go,
        Bool.false_eq_true, if_false]
      match acc with
      | [] => exact ih [edgeOf c]
      | last :: acctail =>
        by_cases he : edgeOf c = last
        · simp [he, ih]
        · simp [he, ih]

/-- C7: `to_path` skips leading empty cursors and every later empty cursor
and collapses adjacent repeated edges; consequently any cursor sequence
materializes to the same edge path as the same sequence with all empty
cursors removed (both run off the end when no non-empty cursor exists). -/
theorem to_path_empty_invariant {α E : Type} [DecidableEq E] (edgeOf : α → E)
    (isEmpty : α → Bool) (cpath : List α) :
    to_path edgeOf isEmpty cpath
      = to_path edgeOf isEmpty (cpath.filter (fun c => !(isEmpty c))) := by
  induction cpath with
  | nil => rfl
  | cons c rest ih =>
    by_cases h : isEmpty c
    · show (skip_empty isEmpty (c :: rest)).map _ = _
      rw [show skip_empty isEmpty (c :: rest) = skip_empty isEmpty rest by
        simp [skip_empty, h]]
      rw [show (c :: rest).filter (fun c => !(isEmpty c)) = rest.filter (fun c => !(isEmpty c)) by
        simp [List.filter_cons, h]]
      exact ih
    · show (skip_empty isEmpty (c :: rest)).map _ = _
      rw [show skip_empty isEmpty (c :: rest) = some (c :: rest) by
        simp [skip_empty, h]]
      rw [show (c :: rest).filter (fun c => !(isEmpty c))
          = c :: rest.filter (fun c => !(isEmpty c)) by simp [List.filter_cons, h]]
      show some _ = (skip_empty isEmpty (c :: rest.filter (fun c => !(isEmpty c)))).map _
      rw [show skip_empty isEmpty (c :: rest.filter (fun c => !(isEmpty c)))
          = some (c :: rest.filter (fun c => !(isEmpty c))) by simp [skip_empty, h]]
      simp only [Option.map_some]
      congr 1
      rw [show (c :: rest.filter (fun c => !(isEmpty c)))
          = (c :: rest).filter (fun c => !(isEmpty c)) by simp [List.filter_cons, h]]
      exact congrArg List.reverse (to_path_go_filter edgeOf isEmpty (c :: rest) [])

/-! ### C10: to_path is defined only on sequences with a non-empty cursor -/

theorem to_path_go_length {α E : Type} [DecidableEq E] (edgeOf : α → E)
    (isEmpty : α → Bool) (l : List α) :
    ∀ acc : List E, acc.length ≤ (to_path_go edgeOf isEmpty l acc).length := by
  induction l with
  | nil => intro acc; exact Nat.le_refl _
  | cons c rest ih =>
    intro acc
    by_cases h : isEmpty c
    · simp only [to_path_go, h, if_true]; exact ih acc
    · simp only [to_path_go, h, Bool.false_eq_true, if_false]
      match acc with
      | [] => exact Nat.le_trans (Nat.zero_le _) (ih [edgeOf c])
      | last :: acctail =>
        by_cases he : edgeOf c = last
        · simp only [he, if_true]; exact ih (last :: acctail)
        · simp only [he, if_false]
          exact Nat.le_trans (Nat.le_succ _) (ih (edgeOf c :: last :: acctail))

theorem skip_empty_of_nonempty {α : Type} (isEmpty : α → Bool) (l : List α)
    (h : ∃ c ∈ l, isEmpty c = false) :
    ∃ c rest, skip_empty isEmpty l = some (c :: rest) ∧ isEmpty c = false := by
  induction l with
  | nil => obtain ⟨c, hc, _⟩ := h; exact absurd hc (List.not_mem_nil c)
  | cons c rest ih =>
    by_cases hc : isEmpty c
    · have : ∃ d ∈ rest, isEmpty d = false := by
        obtain ⟨d, hd, hde⟩ := h
        rcases List.mem_cons.mp hd with rfl | hd'
        · rw [hc] at hde; exact absurd hde (by simp)
        · exact ⟨d, hd', hde⟩
      obtain ⟨d, r, hr, hde⟩ := ih this
      exact ⟨d, r, by simp [skip_empty, hc, hr], hde⟩
    · exact ⟨c, rest, by simp [skip_empty, hc], by simpa using hc⟩

theorem skip_empty_none_of_all {α : Type} (isEmpty : α → Bool) (l : List α)
    (h : ∀ c ∈ l, isEmpty c = true) : skip_empty isEmpty l = none := by
  induction l with
  | nil => rfl
  | cons c rest ih =>
    have hc : isEmpty c = true := h c (List.mem_cons_self c rest)
    simp only [skip_empty, hc, if_true]
    exact ih (fun d hd => h d (List.mem_cons_of_mem c hd))

/-- C10: `to_path` is well-defined exactly when the cursor sequence contains
a non-empty cursor: then the leading-skip loop stays in bounds and a
non-empty edge path is returned; an empty or all-empty sequence drives the
unguarded loop past the end of the sequence (modelled as `none`). -/
theorem to_path_requires_nonempty {α E : Type} [DecidableEq E] (edgeOf : α → E)
    (isEmpty : α → Bool) (cpath : List α) :
    ((∃ c ∈ cpath, isEmpty c = false) →
      ∃ p, to_path edgeOf isEmpty cpath = some p ∧ p ≠ []) ∧
    ((∀ c ∈ cpath, isEmpty c = true) → to_path edgeOf isEmpty cpath = none) := by
  constructor
  · intro h
    obtain ⟨c, rest, hskip, hce⟩ := skip_empty_of_nonempty isEmpty cpath h
    refine ⟨(to_path_go edgeOf isEmpty (c :: rest) []).reverse, by simp [to_path, hskip], ?_⟩
    have h1 : 1 ≤ (to_path_go edgeOf isEmpty (c :: rest) []).length := by
      have := to_path_go_length edgeOf isEmpty rest [edgeOf c]
      simpa [to_path_go, hce] using this
    intro hcontra
    have := congrArg List.length hcontra
    rw [List.length_reverse] at this
    simp only [List.length_nil] at this
    omega
  · intro h
    simp [to_path, skip_empty_none_of_all isEmpty cpath h]

theorem to_path_requires_nonempty_witness :
    (∃ p, to_path (fun o : Option Nat => o.getD 0) Option.isNone
        [none, some 3, none, some 3, some 7] = some p ∧ p ≠ []) ∧
    to_path (fun o : Option Nat => o.getD 0) Option.isNone
        ([none, none] : List (Option Nat)) = none :=
  ⟨(to_path_requires_nonempty (fun o : Option Nat => o.getD 0) Option.isNone
      [none, some 3, none, some 3, some 7]).1 (by decide),
   (to_path_requires_nonempty (fun o : Option Nat => o.getD 0) Option.isNone
      [none, none]).2 (by decide)⟩

/-! ### C5: undersized components yield the whole-edge sentinel -/

/-- C5: for a component whose halved edge count is below `min_size`, the
driver emits exactly one `PathInfo` with rank 0, the singleton leader-edge
path and the empty residue string, independent of the aligner (which is
never invoked). -/
theorem driver_small_component_sentinel (min_size max_size e esize : Nat)
    (aligner : Unit → List (String × List Nat)) (h : esize / 2 < min_size) :
    processComponent min_size max_size e esize aligner = [⟨e, 0, "", [e]⟩] ∧
    (∀ aligner2 : Unit → List (String × List Nat),
      processComponent min_size max_size e esize aligner
        = processComponent min_size max_size e esize aligner2) := by
  constructor
  · simp [processComponent, h]
  · intro aligner2; simp [processComponent, h]

/-- The concrete scenario of the spec: a single-edge component
(`e_size() = 2` after reverse-complement doubling, so the halved count is 1)
with `min_size = 2` and `max_size = 1000` produces exactly the whole-edge
sentinel result, whatever the aligner would have returned. -/
theorem driver_small_component_sentinel_witness :
    processComponent 2 1000 5 2 (fun _ => [("seq", [1, 2, 3])]) = [⟨5, 0, "", [5]⟩] :=
  (driver_small_component_sentinel 2 1000 5 2 (fun _ => [("seq", [1, 2, 3])])
    (by decide)).1

/-! ### C6: oversized components are skipped -/

/-- C6 fails as stated: the undersized check runs first, so with
`min_size = 3000 > max_size = 1000` a component of halved size 2000 exceeds
`max_size` yet still emits a `PathInfo` (the whole-edge sentinel) instead of
no result. -/
theorem driver_large_component_cex :
    1000 < 4000 / 2 ∧
    processComponent 3000 1000 7 4000 (fun _ => []) ≠ [] := by
  constructor
  · decide
  · intro h
    have : processComponent 3000 1000 7 4000 (fun _ => []) = [⟨7, 0, "", [7]⟩] := by
      simp [processComponent]
    rw [this] at h
    exact absurd h (by simp)

/-- C6 amended: for a component whose halved edge count is at least
`min_size` and exceeds `max_size`, the driver emits no `PathInfo` and never
invokes the aligner (the check precedes any search work). -/
theorem driver_large_component_skip (min_size max_size e esize : Nat)
    (aligner : Unit → List (String × List Nat))
    (h1 : ¬ esize / 2 < min_size) (h2 : max_size < esize / 2) :
    processComponent min_size max_size e esize aligner = [] ∧
    (∀ aligner2 : Unit → List (String × List Nat),
      processComponent min_size max_size e esize aligner
        = processComponent min_size max_size e esize aligner2) := by
  constructor
  · simp [processComponent, h1, h2]
  · intro aligner2; simp [processComponent, h1, h2]

theorem driver_large_component_skip_witness :
    processComponent 2 3 9 8 (fun _ => [("seq", [4, 5])]) = [] :=
  (driver_large_component_skip 2 3 9 8 (fun _ => [("seq", [4, 5])])
    (by decide) (by decide)).1

/-! ### C1: the component joining pass -/

theorem joinInner_length_le (estart eend : Nat → Nat) (l : List (Nat × Finset Nat)) :
    ∀ acc : Finset Nat, (joinInner estart eend acc l).2.length ≤ l.length := by
  induction l with
  | nil => intro acc; simp [joinInner]
  | cons p rest ih =>
    intro acc
    obtain ⟨b, sb⟩ := p
    simp only [joinInner]
    by_cases h : estart b ∈ acc ∨ eend b ∈ acc
    · rw [if_pos h]
      exact Nat.le_trans (ih (acc ∪ sb)) (Nat.le_succ _)
    · rw [if_neg h]
      exact Nat.succ_le_succ (ih acc)

theorem joinInner_acc_subset (estart eend : Nat → Nat) (l : List (Nat × Finset Nat)) :
    ∀ acc : Finset Nat, acc ⊆ (joinInner estart eend acc l).1 := by
  induction l with
  | nil => intro acc; simp [joinInner]
  | cons p rest ih =>
    intro acc
    obtain ⟨b, sb⟩ := p
    simp only [joinInner]
    by_cases h : estart b ∈ acc ∨ eend b ∈ acc
    · rw [if_pos h]
      exact Finset.Subset.trans Finset.subset_union_left (ih (acc ∪ sb))
    · rw [if_neg h]
      exact ih acc

theorem joinInner_keys_subset (estart eend : Nat → Nat) (l : List (Nat × Finset Nat)) :
    ∀ acc : Finset Nat,
      (joinInner estart eend acc l).2.map Prod.fst ⊆ l.map Prod.fst := by
  induction l with
  | nil => intro acc; simp [joinInner]
  | cons p rest ih =>
    intro acc
    obtain ⟨b, sb⟩ := p
    simp only [joinInner]
    by_cases h : estart b ∈ acc ∨ eend b ∈ acc
    · rw [if_pos h]
      exact List.Subset.trans (ih (acc ∪ sb)) (List.subset_cons_self _ _)
    · rw [if_neg h]
      exact List.cons_subset_cons _ (ih acc)

theorem joinInner_key_gone (estart eend : Nat → Nat) (b : Nat)
    (l : List (Nat × Finset Nat)) :
    ∀ acc : Finset Nat, estart b ∈ acc ∨ eend b ∈ acc →
      b ∉ (joinInner estart eend acc l).2.map Prod.fst := by
  induction l with
  | nil => intro acc _ hcontra; simp [joinInner] at hcontra
  | cons p rest ih =>
    intro acc hcond
    obtain ⟨e, s⟩ := p
    simp only [joinInner]
    by_cases h : estart e ∈ acc ∨ eend e ∈ acc
    · rw [if_pos h]
      refine ih (acc ∪ s) ?_
      rcases hcond with hc | hc
      · exact Or.inl (Finset.mem_union_left s hc)
      · exact Or.inr (Finset.mem_union_left s hc)
    · rw [if_neg h]
      intro hcontra
      rcases List.mem_cons.mp hcontra with heq | hmem
      · subst heq; exact h hcond
      · exact ih acc hcond hmem

theorem joinInner_set_absorbed (estart eend : Nat → Nat) (b : Nat) (sb : Finset Nat)
    (l : List (Nat × Finset Nat)) :
    ∀ acc : Finset Nat, (b, sb) ∈ l → estart b ∈ acc ∨ eend b ∈ acc →
      sb ⊆ (joinInner estart eend acc l).1 := by
  induction l with
  | nil => intro acc hmem _; exact absurd hmem (List.not_mem_nil _)
  | cons p rest ih =>
    intro acc hmem hcond
    obtain ⟨e, s⟩ := p
    simp only [joinInner]
    rcases List.mem_cons.mp hmem with heq | hmem'
    · injection heq with h1 h2
      subst h1
      subst h2
      rw [if_pos hcond]
      exact Finset.Subset.trans Finset.subset_union_right
        (joinInner_acc_subset estart eend rest (acc ∪ sb))
    · by_cases h : estart e ∈ acc ∨ eend e ∈ acc
      · rw [if_pos h]
        refine ih (acc ∪ s) hmem' ?_
        rcases hcond with hc | hc
        · exact Or.inl (Finset.mem_union_left s hc)
        · exact Or.inr (Finset.mem_union_left s hc)
      · rw [if_neg h]
        exact ih acc hmem' hcond

theorem joinComponentsGo_congr (estart eend : Nat → Nat) :
    ∀ (f1 f2 : Nat) (l : List (Nat × Finset Nat)), l.length ≤ f1 → l.length ≤ f2 →
      joinComponentsGo estart eend f1 l = joinComponentsGo estart eend f2 l := by
  intro f1
  induction f1 with
  | zero =>
    intro f2 l h1 _
    have : l = [] := List.eq_nil_of_length_eq_zero (Nat.le_zero.mp h1)
    subst this
    cases f2 <;> rfl
  | succ f1 ih =>
    intro f2 l h1 h2
    match l with
    | [] => cases f2 <;> rfl
    | (e, s) :: rest =>
      match f2 with
      | 0 => exact absurd h2 (by simp)
      | f2 + 1 =>
        simp only [joinComponentsGo]
        congr 1
        have hr : (joinInner estart eend s rest).2.length ≤ rest.length :=
          joinInner_length_le estart eend rest s
        exact ih f2 _ (Nat.le_trans hr (Nat.succ_le_succ_iff.mp h1))
          (Nat.le_trans hr (Nat.succ_le_succ_iff.mp h2))

theorem joinComponents_cons (estart eend : Nat → Nat) (a : Nat) (sa : Finset Nat)
    (rest : List (Nat × Finset Nat)) :
    joinComponents estart eend ((a, sa) :: rest)
      = (a, (joinInner estart eend sa rest).1)
          :: joinComponents estart eend (joinInner estart eend sa rest).2 := by
  show joinComponentsGo estart eend (rest.length + 1) ((a, sa) :: rest) = _
  simp only [joinComponentsGo]
  congr 1
  exact joinComponentsGo_congr estart eend rest.length _ _
    (joinInner_length_le estart eend rest sa) (Nat.le_refl _)

theorem joinComponents_keys_subset (estart eend : Nat → Nat) :
    ∀ (fuel : Nat) (l : List (Nat × Finset Nat)),
      (joinComponentsGo estart eend fuel l).map Prod.fst ⊆ l.map Prod.fst := by
  intro fuel
  induction fuel with
  | zero => intro l; exact List.Subset.refl _
  | succ fuel ih =>
    intro l
    match l with
    | [] => simp [joinComponentsGo]
    | (e, s) :: rest =>
      simp only [joinComponentsGo, List.map_cons]
      refine List.cons_subset_cons _ ?_
      exact List.Subset.trans (ih _) (joinInner_keys_subset estart eend rest s)

/-- C1 fails as stated: the joining pass tests whether the outer entry's set
contains the inner entry's edge-start or edge-end vertex, not whether the two
vertex sets intersect. Edges 0 (endpoints 0, 1) and 1 (endpoints 2, 3) have
neighbourhood sets sharing vertex 99, yet the pass leaves both entries in
place, so the surviving mapping still has two entries with intersecting
vertex sets. -/
theorem merger_shared_vertex_cex :
    (99 ∈ ({0, 1, 99} : Finset Nat) ∧ 99 ∈ ({2, 3, 99} : Finset Nat)) ∧
    joinComponents (fun e => 2 * e) (fun e => 2 * e + 1)
        [(0, ({0, 1, 99} : Finset Nat)), (1, ({2, 3, 99} : Finset Nat))]
      = [(0, ({0, 1, 99} : Finset Nat)), (1, ({2, 3, 99} : Finset Nat))] := by
  decide

/-- C1 amended: one forward pass; a later entry `(b, sb)` whose edge-start or
edge-end vertex lies in the first entry's vertex set is absorbed: the first
surviving component's vertex set includes the union of both original sets and
`b` heads no surviving entry. (The test is endpoint membership, not vertex-set
intersection, and the single pass is not a fixed point: two surviving entries
may still have intersecting vertex sets.) -/
theorem merger_endpoint_absorb (estart eend : Nat → Nat) (a : Nat) (sa : Finset Nat)
    (rest : List (Nat × Finset Nat)) (b : Nat) (sb : Finset Nat)
    (hmem : (b, sb) ∈ rest) (hcond : estart b ∈ sa ∨ eend b ∈ sa) :
    joinComponents estart eend ((a, sa) :: rest)
      = (a, (joinInner estart eend sa rest).1)
          :: joinComponents estart eend (joinInner estart eend sa rest).2 ∧
    sa ∪ sb ⊆ (joinInner estart eend sa rest).1 ∧
    b ∉ (joinComponents estart eend (joinInner estart eend sa rest).2).map Prod.fst := by
  refine ⟨joinComponents_cons estart eend a sa rest, ?_, ?_⟩
  · exact Finset.union_subset (joinInner_acc_subset estart eend rest sa)
      (joinInner_set_absorbed estart eend b sb rest sa hmem hcond)
  · intro hcontra
    exact joinInner_key_gone estart eend b rest sa hcond
      (joinComponents_keys_subset estart eend _ _ hcontra)

theorem merger_endpoint_absorb_witness :
    joinComponents (fun e => 2 * e) (fun e => 2 * e + 1)
        [(0, ({0, 1, 2} : Finset Nat)), (1, ({2, 3, 7} : Finset Nat))]
      = (0, (joinInner (fun e => 2 * e) (fun e => 2 * e + 1) {0, 1, 2}
            [(1, ({2, 3, 7} : Finset Nat))]).1)
          :: joinComponents (fun e => 2 * e) (fun e => 2 * e + 1)
            (joinInner (fun e => 2 * e) (fun e => 2 * e + 1) {0, 1, 2}
              [(1, ({2, 3, 7} : Finset Nat))]).2 ∧
    ({0, 1, 2} : Finset Nat) ∪ {2, 3, 7}
      ⊆ (joinInner (fun e => 2 * e) (fun e => 2 * e + 1) {0, 1, 2}
          [(1, ({2, 3, 7} : Finset Nat))]).1 ∧
    1 ∉ (joinComponents (fun e => 2 * e) (fun e => 2 * e + 1)
        (joinInner (fun e => 2 * e) (fun e => 2 * e + 1) {0, 1, 2}
          [(1, ({2, 3, 7} : Finset Nat))]).2).map Prod.fst :=
  merger_endpoint_absorb (fun e => 2 * e) (fun e => 2 * e + 1) 0 {0, 1, 2}
    [(1, {2, 3, 7})] 1 {2, 3, 7} (by decide) (by decide)

/-! ### C9: neighbourhood extraction -/

/-- C9: the extraction scales both overhangs by 6 for amino-acid models and
by 2 for nucleotide models; the resulting set always contains the leader
edge's two endpoint vertices; a zero forward (resp. backward) budget runs no
forward (resp. backward) traversal — the result does not depend on that
traversal at all — and with both budgets positive the set is exactly the two
traversals' reached vertices (at the scaled budgets) plus the endpoints. -/
theorem neighbourhood_extraction_props (st en : Nat → Nat)
    (fr br fr2 br2 : Nat → Nat → List Nat) (aa : Bool) (e : Nat) (ov : Nat × Nat) :
    st e ∈ extractNeighbourhood ⟨st, en, fr, br⟩ aa e ov ∧
    en e ∈ extractNeighbourhood ⟨st, en, fr, br⟩ aa e ov ∧
    (ov.2 = 0 → extractNeighbourhood ⟨st, en, fr, br⟩ aa e ov
        = extractNeighbourhood ⟨st, en, fr2, br⟩ aa e ov) ∧
    (ov.1 = 0 → extractNeighbourhood ⟨st, en, fr, br⟩ aa e ov
        = extractNeighbourhood ⟨st, en, fr, br2⟩ aa e ov) ∧
    (0 < ov.1 → 0 < ov.2 → extractNeighbourhood ⟨st, en, fr, br⟩ aa e ov
        = (((fr (ov.2 * (if aa then 6 else 2)) (en e)).toFinset
            ∪ (br (ov.1 * (if aa then 6 else 2)) (st e)).toFinset) ∪ {en e}) ∪ {st e}) := by
  obtain ⟨o1, o2⟩ := ov
  refine ⟨?_, ?_, ?_, ?_, ?_⟩
  · simp [extractNeighbourhood]
  · simp [extractNeighbourhood]
  · intro h
    simp only at h
    subst h
    simp [extractNeighbourhood]
  · intro h
    simp only at h
    subst h
    simp [extractNeighbourhood]
  · intro h1 h2
    simp only at h1 h2
    cases aa
    · have hp2 : 0 < o2 * 2 := Nat.mul_pos h2 (by norm_num)
      have hp1 : 0 < o1 * 2 := Nat.mul_pos h1 (by norm_num)
      simp [extractNeighbourhood, hp1, hp2]
    · have hp2 : 0 < o2 * 6 := Nat.mul_pos h2 (by norm_num)
      have hp1 : 0 < o1 * 6 := Nat.mul_pos h1 (by norm_num)
      simp [extractNeighbourhood, hp1, hp2]

/-- A tiny concrete substrate used to witness the extraction theorem. -/
def sampleSubstrate : GraphSubstrate where
  estart v := v
  eend v := v + 100
  freach b v := [v + b]
  breach b v := [v + 2 * b]

theorem neighbourhood_extraction_props_witness :
    sampleSubstrate.estart 3 ∈ extractNeighbourhood sampleSubstrate true 3 (1, 2) ∧
    (extractNeighbourhood sampleSubstrate true 3 (1, 0)
      = extractNeighbourhood
          ⟨sampleSubstrate.estart, sampleSubstrate.eend,
            fun b v => [v + b + 555], sampleSubstrate.breach⟩ true 3 (1, 0)) ∧
    (extractNeighbourhood sampleSubstrate true 3 (1, 2)
      = (((sampleSubstrate.freach (2 * 6) (sampleSubstrate.eend 3)).toFinset
          ∪ (sampleSubstrate.breach (1 * 6) (sampleSubstrate.estart 3)).toFinset)
          ∪ {sampleSubstrate.eend 3}) ∪ {sampleSubstrate.estart 3}) :=
  ⟨(neighbourhood_extraction_props sampleSubstrate.estart sampleSubstrate.eend
      sampleSubstrate.freach sampleSubstrate.breach
      (fun b v => [v + b + 555]) sampleSubstrate.breach true 3 (1, 2)).1,
   (neighbourhood_extraction_props sampleSubstrate.estart sampleSubstrate.eend
      sampleSubstrate.freach sampleSubstrate.breach
      (fun b v => [v + b + 555]) sampleSubstrate.breach true 3 (1, 0)).2.2.1 (by decide),
   (neighbourhood_extraction_props sampleSubstrate.estart sampleSubstrate.eend
      sampleSubstrate.freach sampleSubstrate.breach
      (fun b v => [v + b + 555]) sampleSubstrate.breach true 3 (1, 2)).2.2.2.2
      (by decide) (by decide)⟩

/-! ### C8: merged path length -/

theorem merge_overlapping_length (k : Nat) (ss : List (List Char))
    (hne : ss ≠ []) (hk : ∀ s ∈ ss, k ≤ s.length) :
    (MergeOverlappingSequences ss k).length
      = (ss.map (fun s => s.length - k)).sum + k := by
  match ss with
  | [] => exact absurd rfl hne
  | s :: rest =>
    simp only [MergeOverlappingSequences, List.length_append, List.map_cons, List.sum_cons]
    have hjoin : ((rest.map (fun t => t.drop k)).flatten).length
        = (rest.map (fun t => t.length - k)).sum := by
      have hfun : (List.length ∘ fun t : List Char => List.drop k t)
          = fun t : List Char => t.length - k := by
        funext t
        simp [List.length_drop]
      rw [List.length_flatten, List.map_map, hfun]
    rw [hjoin]
    have hs : k ≤ s.length := hk s (List.mem_cons_self s rest)
    omega

/-- C8: for a non-empty edge path whose consecutive edges are adjacent (so
the `VERIFY` passes) and whose edge sequences all have length at least `k`,
the materialized linear sequence has length equal to the sum of the edge
lengths (`nucls(e).length - k` each, as in `DeBruijnDataMaster::length`)
plus a single `k`-mer overlap. -/
theorem merge_sequences_length (g : SeqGraph) (continuous_path : List Nat)
    (hne : continuous_path ≠ [])
    (hadj : List.Chain' (fun a b => g.eend a = g.estart b) continuous_path)
    (hk : ∀ e ∈ continuous_path, g.k ≤ (g.nucls e).length) :
    MergeSequences g continuous_path
      = some (MergeOverlappingSequences (continuous_path.map g.nucls) g.k) ∧
    (MergeOverlappingSequences (continuous_path.map g.nucls) g.k).length
      = (continuous_path.map (edge_length g)).sum + g.k := by
  constructor
  · match continuous_path with
    | [] => exact absurd rfl hne
    | p :: rest => simp [MergeSequences, hadj]
  · have h1 : continuous_path.map g.nucls ≠ [] := by
      cases continuous_path
      · exact absurd rfl hne
      · simp
    have h2 : ∀ s ∈ continuous_path.map g.nucls, g.k ≤ s.length := by
      intro s hs
      obtain ⟨e, he, rfl⟩ := List.mem_map.mp hs
      exact hk e he
    rw [merge_overlapping_length g.k (continuous_path.map g.nucls) h1 h2, List.map_map]
    rfl

/-- A two-edge sequence graph with `k = 1`: edges 0 and 1 carry `ab` and
`bc`, edge 0 ends where edge 1 starts. -/
def sampleSeqGraph : SeqGraph where
  k := 1
  nucls e := if e = 0 then ['a', 'b'] else ['b', 'c']
  estart e := e
  eend e := e + 1

theorem merge_sequences_length_witness :
    MergeSequences sampleSeqGraph [0, 1]
      = some (MergeOverlappingSequences ([0, 1].map sampleSeqGraph.nucls)
          sampleSeqGraph.k) ∧
    (MergeOverlappingSequences ([0, 1].map sampleSeqGraph.nucls)
        sampleSeqGraph.k).length
      = ([0, 1].map (edge_length sampleSeqGraph)).sum + sampleSeqGraph.k :=
  merge_sequences_length sampleSeqGraph [0, 1] (by decide)
    (by simp [List.chain'_cons, List.chain'_singleton, sampleSeqGraph]) (by decide)
